import Mathlib

/-!
Verification development for the Neovim updater script (`update.py`).

The definitions below are a shallow embedding of the script's pure logic:
regex-based architecture detection, AppImage asset selection and scoring,
the version-reconciliation decision in `main`, AppImage validation, the
download state transition of `ReleaseManager.download_latest`, the
class-level response cache, and the symlink/extraction state machine of
`NvimUpdater`.  File-system and network effects are modelled as explicit
state records and oracles; machine strings are `String`/`List Char`.
-/

set_option autoImplicit false

namespace NvimUpdate

/-! ## Word-boundary pattern matching

`Architecture` compiles each match substring into the Python regex
`\b<escaped pattern>\b` and uses `pattern.search` on the lower-cased text.
Every match substring starts and ends with a word character
(`x86_64`, `amd64`, `x86-64`, `arm64`, `aarch64`, `armv8`), so for these
patterns `\b` before the match demands start-of-string or a preceding
non-word character, and `\b` after the match demands end-of-string or a
following non-word character.  `matchesHere`/`searchFrom` implement exactly
that search over `List Char`.  The script only ever meets ASCII filenames,
so the ASCII `isWordChar` below agrees with Python's `\w`.
-/

/-- Python regex word character `[a-zA-Z0-9_]` (ASCII fragment of `\w`). -/
def isWordChar (c : Char) : Bool :=
  c.isAlphanum || c == '_'

/-- Does pattern `p` occur at the head of `s`, with a word boundary
immediately after it?  (All architecture patterns end in a word character,
so the trailing `\b` demands that the next character, if any, is a
non-word character.) -/
def matchesHere : List Char → List Char → Bool
  | [], [] => true
  | [], c :: _ => !isWordChar c
  | _ :: _, [] => false
  | a :: p, b :: s => a == b && matchesHere p s

/-- Scan `s` for an occurrence of `p` preceded by a word boundary;
`prevWord` records whether the character just before `s` was a word
character (`false` at the start of the string). -/
def searchFrom (p : List Char) : Bool → List Char → Bool
  | prevWord, [] => !prevWord && matchesHere p []
  | prevWord, c :: s =>
    (!prevWord && matchesHere p (c :: s)) || searchFrom p (isWordChar c) s

/-- `re.compile(rf"\b{re.escape(pattern)}\b").search(text)` as a Boolean,
for patterns that start and end with word characters. -/
def patternSearch (p : String) (s : String) : Bool :=
  searchFrom p.data false s.data

/-- Python `str.lower()` on the ASCII names the script meets: lower-case
each character.  (Defined characterwise so that it evaluates by kernel
reduction; Lean's `String.toLower` is the same function.) -/
def strLower (s : String) : String :=
  ⟨s.data.map Char.toLower⟩

/-! ## Architecture -/

/-- The closed set of supported CPU architectures (`class Architecture(Enum)`). -/
inductive Architecture where
  | X86_64
  | ARM64
  deriving DecidableEq, Repr

/-- The `canonical` field of each enum member. -/
def Architecture.canonical : Architecture → String
  | .X86_64 => "x86_64"
  | .ARM64 => "arm64"

/-- The `matches` list of each enum member, in source order. -/
def Architecture.matchStrings : Architecture → List String
  | .X86_64 => ["x86_64", "amd64", "x86-64"]
  | .ARM64 => ["arm64", "aarch64", "armv8"]

/-- Enum iteration order of `for arch in cls` (definition order). -/
def Architecture.enumOrder : List Architecture :=
  [.X86_64, .ARM64]

/-- `Architecture.detect_from_name`: lower-case the name and return the
first architecture (in enum order) one of whose compiled patterns matches;
`none` when no pattern matches. -/
def Architecture.detect_from_name (name : String) : Option Architecture :=
  let nameLower := strLower name
  Architecture.enumOrder.find? fun arch =>
    arch.matchStrings.any fun p => patternSearch p nameLower

/-! ## Release data model -/

/-- `ReleaseAsset`: one downloadable file attached to a release. -/
structure ReleaseAsset where
  name : String
  browser_download_url : String
  size : Nat
  content_type : String
  download_count : Nat
  deriving DecidableEq, Repr

/-- `ReleaseInfo`: one upstream release. -/
structure ReleaseInfo where
  tag_name : String
  name : String
  body : String
  assets : List ReleaseAsset
  prerelease : Bool
  draft : Bool
  deriving DecidableEq, Repr

/-- Python `needle in haystack` for strings: plain substring containment. -/
def containsSub (p : List Char) : List Char → Bool
  | [] => p.isPrefixOf []
  | c :: s => p.isPrefixOf (c :: s) || containsSub p s

/-- Python `haystack.endswith(suffix)`. -/
def endsWith (p s : List Char) : Bool :=
  p.reverse.isPrefixOf s.reverse

/-- The filter-and-score loop of `ReleaseInfo.find_appimage_asset`:
skip assets whose lower-cased name does not end in `.appimage` or contains
`.appimage.`, skip assets with no detectable architecture, and score the
rest (+10 for an architecture match, +5 for `linux` in the name),
preserving input order. -/
def scoreAssets (arch : Architecture) : List ReleaseAsset → List (Nat × ReleaseAsset)
  | [] => []
  | asset :: rest =>
    let nameLower := strLower asset.name
    if !endsWith ".appimage".data nameLower.data
        || containsSub ".appimage.".data nameLower.data then
      scoreAssets arch rest
    else
      match Architecture.detect_from_name nameLower with
      | none => scoreAssets arch rest
      | some detected =>
        ((if detected = arch then 10 else 0)
          + (if containsSub "linux".data nameLower.data then 5 else 0), asset)
          :: scoreAssets arch rest

/-- Head of `sorted(scored, key=fst, reverse=True)`: Python's sort is
stable and `reverse=True` keeps equal keys in input order, so the result
is the first pair attaining the maximal score. -/
def pickBest : List (Nat × ReleaseAsset) → Option (Nat × ReleaseAsset)
  | [] => none
  | x :: xs =>
    match pickBest xs with
    | none => some x
    | some y => if y.1 > x.1 then some y else some x

/-- `find_appimage_asset` on a plain asset list. -/
def findAppImageAsset (assets : List ReleaseAsset) (arch : Architecture) :
    Option ReleaseAsset :=
  (pickBest (scoreAssets arch assets)).map Prod.snd

/-- `ReleaseInfo.find_appimage_asset(arch)`. -/
def ReleaseInfo.find_appimage_asset (r : ReleaseInfo)
    (arch : Architecture := .X86_64) : Option ReleaseAsset :=
  findAppImageAsset r.assets arch

/-! ## Version reconciliation (`main`, lines 788-805)

`main` probes the installed version (`get_installed_version`, which may
return `None`), fetches the latest release, and decides between the full
install path (`download_and_install`) and the no-op branch that still runs
`update_symlink`. -/

/-- Python `s.lstrip("v")`: remove every leading `'v'` character. -/
def lstripV (s : String) : String :=
  ⟨s.data.dropWhile (· = 'v')⟩

/-- The condition of `main`'s `if`:
`current_version is None or current_version.lstrip("v") !=
latest_release.tag_name.lstrip("v") or not nvim_updater.is_installed_correctly()`.
`installedCorrectly` is the result of `is_installed_correctly`, i.e. whether
the `AppRun` launcher file exists. -/
def updateDecision (currentVersion : Option String) (tagName : String)
    (installedCorrectly : Bool) : Bool :=
  match currentVersion with
  | none => true
  | some v => lstripV v ≠ lstripV tagName || !installedCorrectly

/-- The two branches `main` can take after the version comparison. -/
inductive MainAction where
  | fullInstall
  | symlinkOnly
  deriving DecidableEq, Repr

/-- Which branch `main` takes: `download_and_install` when `updateDecision`
holds, otherwise only `update_symlink`. -/
def mainUpdateAction (currentVersion : Option String) (tagName : String)
    (installedCorrectly : Bool) : MainAction :=
  if updateDecision currentVersion tagName installedCorrectly then
    .fullInstall
  else
    .symlinkOnly

/-! ## AppImage validation and download (`ReleaseManager`) -/

/-- `ReleaseManager.MIN_APPIMAGE_SIZE = 10 * 1024 * 1024`. -/
def MIN_APPIMAGE_SIZE : Nat := 10 * 1024 * 1024

/-- `ReleaseManager.validate_appimage(file_path, expected_size)`, with the
file's existence, size and executable bit passed explicitly.  Note Python's
`if expected_size and file_size != expected_size`: the size-equality check
is skipped when `expected_size` is `None` (or `0`, which is falsy). -/
def validate_appimage (fileExists : Bool) (fileSize : Nat)
    (isExecutable : Bool) (expectedSize : Option Nat) : Bool :=
  if !fileExists then false
  else if fileSize < MIN_APPIMAGE_SIZE then false
  else if (match expectedSize with
            | none => false
            | some e => e ≠ 0 && fileSize ≠ e) then false
  else if !isExecutable then false
  else true

/-- A file on disk, for the purposes of `download_latest`: its byte size
and its executable bit. -/
structure AppFile where
  size : Nat
  executable : Bool
  deriving DecidableEq, Repr

/-- The part of the target directory `download_latest` can touch: the
temporary download file and `nvim.appimage` at the final path. -/
structure InstallDir where
  tempFile : Option AppFile
  finalFile : Option AppFile
  deriving DecidableEq, Repr

/-- `ReleaseManager.download_latest`, as a state transition on the target
directory.  `downloaded = none` models an exception raised while
downloading (the `except` branch unlinks the temporary file);
`downloaded = some f` models a streamed download of `f.size` bytes
followed by `chmod 0o755`, after which `os.access(…, X_OK)` reports
`f.executable`.  Validation failure unlinks the temporary file and returns
`False`; only after validation succeeds is the temporary file moved onto
the final path. -/
def download_latest (fs : InstallDir) (downloaded : Option AppFile)
    (expectedSize : Option Nat) : InstallDir × Bool :=
  match downloaded with
  | none => ({ fs with tempFile := none }, false)
  | some f =>
    if validate_appimage true f.size f.executable expectedSize then
      ({ tempFile := none, finalFile := some f }, true)
    else
      ({ fs with tempFile := none }, false)

/-! ## Class-level response cache (`ReleaseManager._api_cache`) -/

/-- A parsed JSON response body (`response.json()`), modelled as an
association list of fields; Python's truthiness test `if cached_data:` is
non-emptiness. -/
abbrev Payload := List (String × String)

/-- `ReleaseManager.CACHE_DURATION = 3600` seconds. -/
def CACHE_DURATION : Nat := 3600

/-- `ReleaseManager.GITHUB_API_URL`. -/
def GITHUB_API_URL : String :=
  "https://api.github.com/repos/neovim/neovim/releases/latest"

/-- `_api_cache`: a dictionary from URL to `(timestamp, data)`. -/
abbrev ApiCache := List (String × Nat × Payload)

/-- Dictionary lookup `cache.get(url)`. -/
def cacheLookup : ApiCache → String → Option (Nat × Payload)
  | [], _ => none
  | (u, ts, d) :: rest, url =>
    if u = url then some (ts, d) else cacheLookup rest url

/-- Dictionary deletion `del cache[url]`. -/
def cacheErase : ApiCache → String → ApiCache
  | [], _ => []
  | (u, ts, d) :: rest, url =>
    if u = url then rest else (u, ts, d) :: cacheErase rest url

/-- Dictionary assignment `cache[url] = (ts, d)`:
replace the existing binding or append a new one. -/
def cacheInsert : ApiCache → String → Nat → Payload → ApiCache
  | [], url, ts, d => [(url, ts, d)]
  | (u, ts', d') :: rest, url, ts, d =>
    if u = url then (u, ts, d) :: rest
    else (u, ts', d') :: cacheInsert rest url ts d

/-- `ReleaseManager._get_cached_response(url)`: returns the cached data if
present and younger than `CACHE_DURATION`; deletes an expired entry and
returns `None`.  (`time.time()` is passed in as `now`.) -/
def get_cached_response (cache : ApiCache) (now : Nat) (url : String) :
    ApiCache × Option Payload :=
  match cacheLookup cache url with
  | none => (cache, none)
  | some (ts, data) =>
    if now - ts > CACHE_DURATION then (cacheErase cache url, none)
    else (cache, some data)

/-- `ReleaseManager._cache_response(url, data)`. -/
def cache_response (cache : ApiCache) (url : String) (now : Nat)
    (data : Payload) : ApiCache :=
  cacheInsert cache url now data

/-- Result of one `fetch_latest_release` call: the cache afterwards, the
number of `requests.get` calls made (0 or 1), and either the payload or the
HTTP status of the `ValueError` raised on a non-200 response. -/
structure FetchResult where
  cache : ApiCache
  networkCalls : Nat
  payload : Except Nat Payload
  deriving Repr

/-- `ReleaseManager.fetch_latest_release`, with `time.time()` passed as
`now` and the network modelled by the oracle `net = (status_code, body)`
describing what `requests.get(GITHUB_API_URL)` would return.  A truthy
(non-empty) fresh cache entry is returned with no network call; otherwise
the network is consulted, a non-200 status raises `ValueError`, and a 200
body is cached under the current timestamp before being returned. -/
def fetch_latest_release (cache : ApiCache) (now : Nat) (net : Nat × Payload) :
    FetchResult :=
  let checked := get_cached_response cache now GITHUB_API_URL
  match checked.2 with
  | some d =>
    if d ≠ [] then { cache := checked.1, networkCalls := 0, payload := .ok d }
    else fetchFromNetwork checked.1 now net
  | none => fetchFromNetwork checked.1 now net
where
  /-- The code path after the cache miss: `requests.get`, status check,
  `_cache_response`. -/
  fetchFromNetwork (cache : ApiCache) (now : Nat) (net : Nat × Payload) :
      FetchResult :=
    if net.1 ≠ 200 then
      { cache := cache, networkCalls := 1, payload := .error net.1 }
    else
      { cache := cache_response cache GITHUB_API_URL now net.2,
        networkCalls := 1, payload := .ok net.2 }

/-! ## Symlink and extraction state machine (`NvimUpdater`) -/

/-- `APPRUN_PATH = "/opt/nvim/squashfs-root/AppRun"`. -/
def APPRUN_PATH : String := "/opt/nvim/squashfs-root/AppRun"

/-- The file-system state `extract_appimage`/`update_symlink` act on:
whether `/opt/nvim/squashfs-root` exists, whether the `AppRun` launcher
inside it exists, the target of the `/usr/bin/nvim` symlink (if present),
and whether the legacy `/opt/nvim/nvim` symlink exists. -/
structure SymState where
  extractDirExists : Bool
  apprunExists : Bool
  symlinkTarget : Option String
  oldSymlinkExists : Bool
  deriving DecidableEq, Repr

/-- What the `--appimage-extract` subprocess achieves: a complete
extraction, a partial one (directory created, launcher missing), or
nothing at all. -/
inductive ExtractOutcome where
  | full
  | dirOnly
  | failed
  deriving DecidableEq, Repr

/-- `NvimUpdater.extract_appimage`, as its two observable file-system
states: first after `shutil.rmtree` of a stale `squashfs-root` (the old
bundle directory and its launcher are gone), then after the extraction
subprocess returns. -/
def extract_appimage (st : SymState) (outcome : ExtractOutcome) :
    SymState × SymState :=
  let afterRemove : SymState :=
    { st with extractDirExists := false, apprunExists := false }
  let afterExtract : SymState :=
    match outcome with
    | .full => { afterRemove with extractDirExists := true, apprunExists := true }
    | .dirOnly => { afterRemove with extractDirExists := true }
    | .failed => afterRemove
  (afterRemove, afterExtract)

/-- `NvimUpdater.update_symlink`: remove the legacy `/opt/nvim/nvim` link
if present, then (re)point `/usr/bin/nvim` at `APPRUN_PATH` unless it
already points there.  Nothing checks that the launcher exists. -/
def update_symlink (st : SymState) : SymState :=
  let st1 := { st with oldSymlinkExists := false }
  if st1.symlinkTarget ≠ some APPRUN_PATH then
    { st1 with symlinkTarget := some APPRUN_PATH }
  else
    st1

/-- The spec's symlink invariant: when the command-entry symlink exists it
resolves to the existing launcher inside the currently extracted bundle
directory. -/
def symlinkInvariant (st : SymState) : Bool :=
  match st.symlinkTarget with
  | none => true
  | some t => t = APPRUN_PATH && st.apprunExists

/-! ## `main`'s step sequence around the fetch (`main`, lines 788-815) -/

/-- The independent steps `main` runs after the Neovim update attempt. -/
structure RunSteps where
  updateAttempted : Bool
  configSync : Bool
  crontabSetup : Bool
  aliasSetup : Bool
  selfUpdate : Bool
  deriving DecidableEq, Repr

/-- `main` from the `fetch_latest_release()` call on:
`latest_release = ReleaseManager().fetch_latest_release()` is not wrapped
in any `try`, so the `ValueError` raised on a non-200 response propagates
out of `main` and none of the subsequent steps run; on success every
subsequent step is reached. -/
def main_update_flow (cache : ApiCache) (now : Nat) (net : Nat × Payload) :
    Except Nat RunSteps :=
  match (fetch_latest_release cache now net).payload with
  | .error code => .error code
  | .ok _ =>
    .ok { updateAttempted := true, configSync := true, crontabSetup := true,
          aliasSetup := true, selfUpdate := true }

/-! ## Concrete assets used in the spec's scenarios -/

/-- The AppImage asset of the matcher scenario. -/
def assetLinux64 : ReleaseAsset :=
  ⟨"nvim-linux-x86_64.appimage", "https://example/nvim.appimage", 15000000, "application/octet-stream", 0⟩

/-- The zsync metadata side-file of the matcher scenario. -/
def assetZsync : ReleaseAsset :=
  ⟨"nvim-linux-x86_64.appimage.zsync", "https://example/nvim.appimage.zsync", 500, "application/octet-stream", 0⟩

/-- A release carrying the two scenario assets. -/
def scenarioRelease : ReleaseInfo :=
  ⟨"v0.10.2", "NVIM v0.10.2", "", [assetLinux64, assetZsync], false, false⟩

/-! ## Helper lemmas: substring and suffix characterizations -/

theorem isPrefixOf_iff_exists (p s : List Char) :
    p.isPrefixOf s = true ↔ ∃ t, s = p ++ t := by
  induction p generalizing s with
  | nil =>
    simp [List.isPrefixOf]
  | cons a p ih =>
    cases s with
    | nil =>
      simp [List.isPrefixOf]
    | cons b s' =>
      simp only [List.isPrefixOf, Bool.and_eq_true, beq_iff_eq, ih]
      constructor
      · rintro ⟨rfl, t, rfl⟩
        exact ⟨t, rfl⟩
      · rintro ⟨t, ht⟩
        rcases List.cons_eq_cons.mp ht with ⟨rfl, rfl⟩
        exact ⟨rfl, t, rfl⟩

theorem containsSub_iff_exists (p s : List Char) :
    containsSub p s = true ↔ ∃ pre suf, s = pre ++ p ++ suf := by
  induction s with
  | nil =>
    simp only [containsSub, isPrefixOf_iff_exists]
    constructor
    · rintro ⟨t, ht⟩
      exact ⟨[], t, by simpa using ht⟩
    · rintro ⟨pre, suf, h⟩
      rcases List.append_eq_nil.mp (List.append_eq_nil.mp h.symm).1 with ⟨h1, h2⟩
      exact ⟨suf, by simp [h1, h2, (List.append_eq_nil.mp h.symm).2.symm]⟩
  | cons c s' ih =>
    simp only [containsSub, Bool.or_eq_true, isPrefixOf_iff_exists, ih]
    constructor
    · rintro (⟨t, ht⟩ | ⟨pre, suf, hs⟩)
      · exact ⟨[], t, by simpa using ht⟩
      · exact ⟨c :: pre, suf, by simp [hs]⟩
    · rintro ⟨pre, suf, hs⟩
      cases pre with
      | nil =>
        exact Or.inl ⟨suf, by simpa using hs⟩
      | cons c0 pre' =>
        rcases List.cons_eq_cons.mp hs with ⟨rfl, hrest⟩
        exact Or.inr ⟨pre', suf, hrest⟩

theorem endsWith_iff_exists (p s : List Char) :
    endsWith p s = true ↔ ∃ t, s = t ++ p := by
  simp only [endsWith, isPrefixOf_iff_exists]
  constructor
  · rintro ⟨t, ht⟩
    refine ⟨t.reverse, ?_⟩
    have := congrArg List.reverse ht
    simpa using this
  · rintro ⟨t, rfl⟩
    exact ⟨t.reverse, by simp⟩

/-! ## Helper lemmas: `pickBest` and `scoreAssets` -/

theorem pickBest_ne_none (l : List (Nat × ReleaseAsset)) (h : l ≠ []) :
    pickBest l ≠ none := by
  cases l with
  | nil => exact absurd rfl h
  | cons x xs =>
    rw [pickBest]
    cases pickBest xs with
    | none => simp
    | some y => by_cases hz : y.1 > x.1 <;> simp [hz]

theorem pickBest_mem (l : List (Nat × ReleaseAsset)) (x : Nat × ReleaseAsset)
    (h : pickBest l = some x) : x ∈ l := by
  induction l generalizing x with
  | nil => simp [pickBest] at h
  | cons y ys ih =>
    rw [pickBest] at h
    split at h
    · simp at h
      simp [h]
    · rename_i z hy
      split at h
      · have hzx : z = x := by injection h
        exact List.mem_cons_of_mem _ (ih x (hzx ▸ hy))
      · simp at h
        simp [h]

theorem pickBest_max (l : List (Nat × ReleaseAsset)) (x : Nat × ReleaseAsset)
    (h : pickBest l = some x) : ∀ y ∈ l, y.1 ≤ x.1 := by
  induction l generalizing x with
  | nil => simp [pickBest] at h
  | cons y ys ih =>
    rw [pickBest] at h
    split at h
    · rename_i hy
      simp at h
      have hnil : ys = [] := by
        by_contra hne
        exact pickBest_ne_none ys hne hy
      subst hnil
      intro w hw
      simp at hw
      simp [hw, ← h]
    · rename_i z hy
      split at h
      · rename_i hz
        intro w hw
        rcases List.mem_cons.mp hw with rfl | hw'
        · have hx : z = x := by injection h
          exact le_of_lt (hx ▸ hz)
        · have hx : z = x := by injection h
          exact ih x (hx ▸ hy) w hw'
      · rename_i hz
        simp at h
        intro w hw
        rcases List.mem_cons.mp hw with rfl | hw'
        · simp [← h]
        · calc w.1 ≤ z.1 := ih z hy w hw'
            _ ≤ y.1 := not_lt.mp hz
            _ = x.1 := by rw [h]

/-- Membership in the scored list characterizes the filter and the score. -/
theorem scoreAssets_mem (arch : Architecture) (assets : List ReleaseAsset)
    (s : Nat) (a : ReleaseAsset) (h : (s, a) ∈ scoreAssets arch assets) :
    a ∈ assets ∧
    endsWith ".appimage".data (strLower a.name).data = true ∧
    containsSub ".appimage.".data (strLower a.name).data = false ∧
    ∃ d, Architecture.detect_from_name (strLower a.name) = some d ∧
      s = (if d = arch then 10 else 0)
        + (if containsSub "linux".data (strLower a.name).data then 5 else 0) := by
  induction assets with
  | nil => simp [scoreAssets] at h
  | cons asset rest ih =>
    simp only [scoreAssets] at h
    by_cases h1 : (!endsWith ".appimage".data (strLower asset.name).data
        || containsSub ".appimage.".data (strLower asset.name).data) = true
    · rw [if_pos h1] at h
      rcases ih h with ⟨hmem, hrest⟩
      exact ⟨List.mem_cons_of_mem _ hmem, hrest⟩
    · rw [if_neg h1] at h
      obtain ⟨he, hc⟩ : endsWith ".appimage".data (strLower asset.name).data = true ∧
          containsSub ".appimage.".data (strLower asset.name).data = false := by
        simpa using h1
      cases hd : Architecture.detect_from_name (strLower asset.name) with
      | none =>
        rw [hd] at h
        rcases ih h with ⟨hmem, hrest⟩
        exact ⟨List.mem_cons_of_mem _ hmem, hrest⟩
      | some detected =>
        rw [hd] at h
        rcases List.mem_cons.mp h with heq | h'
        · injection heq with hs ha
          subst ha
          exact ⟨List.mem_cons_self _ _, he, hc, detected, hd, hs⟩
        · rcases ih h' with ⟨hmem, hrest⟩
          exact ⟨List.mem_cons_of_mem _ hmem, hrest⟩

/-- An asset passing the filter and detection makes the scored list non-empty. -/
theorem scoreAssets_ne_nil (arch : Architecture) (assets : List ReleaseAsset)
    (a : ReleaseAsset) (hmem : a ∈ assets)
    (he : endsWith ".appimage".data (strLower a.name).data = true)
    (hc : containsSub ".appimage.".data (strLower a.name).data = false)
    (hd : (Architecture.detect_from_name (strLower a.name)).isSome = true) :
    scoreAssets arch assets ≠ [] := by
  induction assets with
  | nil => simp at hmem
  | cons asset rest ih =>
    rw [scoreAssets]
    rcases List.mem_cons.mp hmem with rfl | hmem'
    · rw [if_neg (by simp [he, hc])]
      cases hdd : Architecture.detect_from_name (strLower a.name) with
      | none => rw [hdd] at hd; simp at hd
      | some d => simp
    · by_cases h1 : (!endsWith ".appimage".data (strLower asset.name).data
          || containsSub ".appimage.".data (strLower asset.name).data) = true
      · rw [if_pos h1]
        exact ih hmem'
      · rw [if_neg h1]
        cases hdd : Architecture.detect_from_name (strLower asset.name) with
        | none => exact ih hmem'
        | some d => simp

/-- An ARM64 AppImage asset, used as the non-matching candidate in witnesses. -/
def assetArm64 : ReleaseAsset :=
  ⟨"nvim-linux-arm64.appimage", "https://example/nvim-arm64.appimage", 14000000, "application/octet-stream", 0⟩

/-! ## Claims -/

/-- C1: `main` takes the full install path iff the installed version probe
returned `None`, or the launcher file is absent, or the two versions differ
after `lstrip("v")` normalization; when the normalized versions agree and
the launcher exists it takes the branch that only reconciles the symlink.
The scenario pair `v0.10.1`/`v0.10.2` installs, `v0.10.2`/`v0.10.2` is the
no-op-plus-symlink branch. -/
theorem claim_C1_update_decision :
    (∀ (cv : Option String) (tag : String) (inst : Bool),
      mainUpdateAction cv tag inst = .fullInstall ↔
        (cv = none ∨ inst = false ∨ ∃ v, cv = some v ∧ lstripV v ≠ lstripV tag)) ∧
    (∀ (cv : Option String) (tag : String) (inst : Bool),
      mainUpdateAction cv tag inst = .symlinkOnly ↔
        ¬(cv = none ∨ inst = false ∨ ∃ v, cv = some v ∧ lstripV v ≠ lstripV tag)) ∧
    mainUpdateAction (some "v0.10.1") "v0.10.2" true = .fullInstall ∧
    mainUpdateAction (some "v0.10.2") "v0.10.2" true = .symlinkOnly := by
  have key : ∀ (cv : Option String) (tag : String) (inst : Bool),
      mainUpdateAction cv tag inst = .fullInstall ↔
        (cv = none ∨ inst = false ∨ ∃ v, cv = some v ∧ lstripV v ≠ lstripV tag) := by
    intro cv tag inst
    cases cv with
    | none => simp [mainUpdateAction, updateDecision]
    | some v =>
      simp only [mainUpdateAction, updateDecision]
      rcases eq_or_ne (lstripV v) (lstripV tag) with hv | hv
      · cases inst <;> simp [hv]
      · cases inst <;> simp [hv]
  refine ⟨key, ?_, ?_, ?_⟩
  · intro cv tag inst
    rw [← key cv tag inst]
    simp only [mainUpdateAction]
    split <;> simp
  · decide
  · decide

/-- C2: every surviving asset's score is exactly the +10 architecture bonus
plus the +5 `linux` bonus and nothing else; the returned asset carries a
maximal score; and in the scenario with `nvim-linux-x86_64.appimage` and
its `.zsync` side-file the matcher keeps only the first with score 15 and
returns it. -/
theorem claim_C2_asset_scoring :
    (∀ (arch : Architecture) (assets : List ReleaseAsset) (s : Nat) (a : ReleaseAsset),
      (s, a) ∈ scoreAssets arch assets →
      ∃ d, Architecture.detect_from_name (strLower a.name) = some d ∧
        s = (if d = arch then 10 else 0)
          + (if containsSub "linux".data (strLower a.name).data then 5 else 0)) ∧
    (∀ (arch : Architecture) (assets : List ReleaseAsset) (s : Nat) (a : ReleaseAsset),
      pickBest (scoreAssets arch assets) = some (s, a) →
      findAppImageAsset assets arch = some a ∧
        ∀ p ∈ scoreAssets arch assets, p.1 ≤ s) ∧
    scoreAssets .X86_64 scenarioRelease.assets = [(15, assetLinux64)] ∧
    scenarioRelease.find_appimage_asset .X86_64 = some assetLinux64 := by
  refine ⟨?_, ?_, ?_, ?_⟩
  · intro arch assets s a h
    exact (scoreAssets_mem arch assets s a h).2.2.2
  · intro arch assets s a h
    exact ⟨by simp [findAppImageAsset, h],
      fun p hp => pickBest_max _ _ h p hp⟩
  · decide
  · decide

/-- Witness for C2 at the scenario input. -/
theorem claim_C2_witness :
    ((15, assetLinux64) ∈ scoreAssets .X86_64 scenarioRelease.assets) ∧
    ∃ d, Architecture.detect_from_name (strLower assetLinux64.name) = some d ∧
      15 = (if d = Architecture.X86_64 then 10 else 0)
        + (if containsSub "linux".data (strLower assetLinux64.name).data then 5 else 0) :=
  ⟨by decide, claim_C2_asset_scoring.1 .X86_64 scenarioRelease.assets 15 assetLinux64 (by decide)⟩

/-- C3: any asset the matcher returns has a lower-cased name ending in
`.appimage` and not containing `.appimage.`; if no asset passes the suffix
filter together with architecture detection, the matcher returns `none`. -/
theorem claim_C3_filter :
    (∀ (assets : List ReleaseAsset) (arch : Architecture) (a : ReleaseAsset),
      findAppImageAsset assets arch = some a →
      (∃ t, (strLower a.name).data = t ++ ".appimage".data) ∧
      ¬∃ pre suf, (strLower a.name).data = pre ++ ".appimage.".data ++ suf) ∧
    (∀ (assets : List ReleaseAsset) (arch : Architecture),
      (∀ a ∈ assets, ¬(endsWith ".appimage".data (strLower a.name).data = true ∧
          containsSub ".appimage.".data (strLower a.name).data = false ∧
          (Architecture.detect_from_name (strLower a.name)).isSome = true)) →
      findAppImageAsset assets arch = none) := by
  constructor
  · intro assets arch a h
    simp only [findAppImageAsset, Option.map_eq_some'] at h
    rcases h with ⟨p, hp, hpa⟩
    have hmem := pickBest_mem _ _ hp
    have := scoreAssets_mem arch assets p.1 p.2 hmem
    rcases this with ⟨_, he, hc, _⟩
    subst hpa
    constructor
    · exact (endsWith_iff_exists _ _).mp he
    · intro hcon
      have := (containsSub_iff_exists ".appimage.".data (strLower p.2.name).data).mpr hcon
      rw [hc] at this
      exact Bool.false_ne_true this
  · intro assets arch hnone
    cases hsc : scoreAssets arch assets with
    | nil => simp [findAppImageAsset, hsc, pickBest]
    | cons p rest =>
      exfalso
      have hmem : (p.1, p.2) ∈ scoreAssets arch assets := by
        rw [hsc]
        simp
      rcases scoreAssets_mem arch assets p.1 p.2 hmem with ⟨ha, he, hc, d, hd, _⟩
      exact hnone p.2 ha ⟨he, hc, by simp [hd]⟩

/-- Witness for C3: the scenario matcher call and its guaranteed shape. -/
theorem claim_C3_witness :
    (findAppImageAsset scenarioRelease.assets .X86_64 = some assetLinux64) ∧
    ((∃ t, (strLower assetLinux64.name).data = t ++ ".appimage".data) ∧
      ¬∃ pre suf, (strLower assetLinux64.name).data = pre ++ ".appimage.".data ++ suf) :=
  ⟨by decide, claim_C3_filter.1 scenarioRelease.assets .X86_64 assetLinux64 (by decide)⟩

/-- C4: among two surviving candidates of which exactly one matches the
target architecture, the matching one wins in either input order (the +10
architecture bonus strictly dominates the +5 platform bonus). -/
theorem claim_C4_arch_priority (a b : ReleaseAsset) (arch da db : Architecture)
    (ha1 : endsWith ".appimage".data (strLower a.name).data = true)
    (ha2 : containsSub ".appimage.".data (strLower a.name).data = false)
    (ha3 : Architecture.detect_from_name (strLower a.name) = some da)
    (hda : da = arch)
    (hb1 : endsWith ".appimage".data (strLower b.name).data = true)
    (hb2 : containsSub ".appimage.".data (strLower b.name).data = false)
    (hb3 : Architecture.detect_from_name (strLower b.name) = some db)
    (hdb : db ≠ arch) :
    findAppImageAsset [a, b] arch = some a ∧
    findAppImageAsset [b, a] arch = some a := by
  cases hla : containsSub "linux".data (strLower a.name).data <;>
    cases hlb : containsSub "linux".data (strLower b.name).data <;>
      simp [findAppImageAsset, scoreAssets, pickBest, ha1, ha2, ha3, hb1, hb2,
        hb3, hda, hdb, hla, hlb]

/-- Witness for C4 with a concrete x86_64/arm64 pair. -/
theorem claim_C4_witness :
    findAppImageAsset [assetLinux64, assetArm64] .X86_64 = some assetLinux64 ∧
    findAppImageAsset [assetArm64, assetLinux64] .X86_64 = some assetLinux64 :=
  claim_C4_arch_priority assetLinux64 assetArm64 .X86_64 .X86_64 .ARM64
    (by decide) (by decide) (by decide) rfl
    (by decide) (by decide) (by decide) (by decide)

/-- C10: the matcher never returns `none` merely because no surviving asset
matches the target architecture: one passing asset suffices for a result,
and with target ARM64 and only an x86_64 AppImage on offer, that asset is
returned. -/
theorem claim_C10_fallback :
    (∀ (arch : Architecture) (assets : List ReleaseAsset) (a : ReleaseAsset),
      a ∈ assets →
      endsWith ".appimage".data (strLower a.name).data = true →
      containsSub ".appimage.".data (strLower a.name).data = false →
      (Architecture.detect_from_name (strLower a.name)).isSome = true →
      findAppImageAsset assets arch ≠ none) ∧
    findAppImageAsset [assetLinux64] .ARM64 = some assetLinux64 := by
  constructor
  · intro arch assets a hmem he hc hd hnone
    have hne := scoreAssets_ne_nil arch assets a hmem he hc hd
    have hpb := pickBest_ne_none _ hne
    simp only [findAppImageAsset, Option.map_eq_none'] at hnone
    exact hpb hnone
  · decide

/-- Witness for C10 at the one-asset ARM64-target input. -/
theorem claim_C10_witness :
    (assetLinux64 ∈ [assetLinux64]) ∧
    findAppImageAsset [assetLinux64] Architecture.ARM64 ≠ none :=
  ⟨by simp, claim_C10_fallback.1 .ARM64 [assetLinux64] assetLinux64
    (by simp) (by decide) (by decide) (by decide)⟩

/-! ## Cache helper lemma -/

theorem cacheLookup_insert (cache : ApiCache) (url : String) (ts : Nat)
    (d : Payload) : cacheLookup (cacheInsert cache url ts d) url = some (ts, d) := by
  induction cache with
  | nil => simp [cacheInsert, cacheLookup]
  | cons e rest ih =>
    rcases e with ⟨u, ts', d'⟩
    by_cases hu : u = url
    · simp [cacheInsert, cacheLookup, hu]
    · simp [cacheInsert, cacheLookup, hu, ih]

/-- C6: when the download raises or validation fails (size below the
10 MiB floor, size unequal to the expected size, or not executable), the
temporary file is removed, failure is reported and the final bundle path
keeps its previous content; success presupposes a passing validation and
only then is the temporary file moved onto the final path.  The 5000000
byte scenario fails validation for every expected size. -/
theorem claim_C6_download_atomic :
    (∀ (fs : InstallDir) (e : Option Nat),
      download_latest fs none e = ({ fs with tempFile := none }, false)) ∧
    (∀ (fs : InstallDir) (f : AppFile) (e : Option Nat),
      validate_appimage true f.size f.executable e = false →
      download_latest fs (some f) e = ({ fs with tempFile := none }, false)) ∧
    (∀ (fs : InstallDir) (f : AppFile) (e : Option Nat),
      (download_latest fs (some f) e).2 = true →
      validate_appimage true f.size f.executable e = true ∧
      download_latest fs (some f) e
        = ({ tempFile := none, finalFile := some f }, true)) ∧
    (∀ (sz : Nat) (e : Option Nat), validate_appimage true sz false e = false) ∧
    (∀ (exec : Bool) (e : Option Nat),
      validate_appimage true 5000000 exec e = false) ∧
    (∀ (fs : InstallDir) (exec : Bool) (e : Option Nat),
      (download_latest fs (some ⟨5000000, exec⟩) e).1.finalFile = fs.finalFile ∧
      (download_latest fs (some ⟨5000000, exec⟩) e).1.tempFile = none ∧
      (download_latest fs (some ⟨5000000, exec⟩) e).2 = false) := by
  have hval : ∀ (exec : Bool) (e : Option Nat),
      validate_appimage true 5000000 exec e = false := by
    intro exec e
    simp [validate_appimage, MIN_APPIMAGE_SIZE]
  refine ⟨?_, ?_, ?_, ?_, hval, ?_⟩
  · intro fs e
    simp [download_latest]
  · intro fs f e h
    simp [download_latest, h]
  · intro fs f e h
    by_cases hv : validate_appimage true f.size f.executable e = true
    · exact ⟨hv, by simp [download_latest, hv]⟩
    · rw [download_latest, if_neg hv] at h
      simp at h
  · intro sz e
    simp [validate_appimage]
  · intro fs exec e
    simp [download_latest, hval exec e]

/-- Witness for C6: a 5000000-byte download against a 15000000-byte
expected size fails and leaves the installed bundle alone. -/
theorem claim_C6_witness :
    validate_appimage true 5000000 true (some 15000000) = false ∧
    download_latest ⟨none, some ⟨12345, true⟩⟩ (some ⟨5000000, true⟩) (some 15000000)
      = (⟨none, some ⟨12345, true⟩⟩, false) :=
  ⟨claim_C6_download_atomic.2.2.2.2.1 true (some 15000000),
    claim_C6_download_atomic.2.1 ⟨none, some ⟨12345, true⟩⟩ ⟨5000000, true⟩ (some 15000000)
      (claim_C6_download_atomic.2.2.2.2.1 true (some 15000000))⟩

/-- C7: a cache hit younger than the one-hour TTL is returned with no
network call; an expired entry is evicted and refetched over the network;
and a miss stores the fresh payload under the current timestamp, so a
second fetch within the TTL returns the identical payload with no network
call. -/
theorem claim_C7_cache (cache : ApiCache) (now : Nat) (net : Nat × Payload)
    (ts : Nat) (d : Payload) :
    (cacheLookup cache GITHUB_API_URL = some (ts, d) →
      now - ts ≤ CACHE_DURATION → d ≠ [] →
      fetch_latest_release cache now net
        = { cache := cache, networkCalls := 0, payload := .ok d }) ∧
    (cacheLookup cache GITHUB_API_URL = some (ts, d) →
      now - ts > CACHE_DURATION → net.1 = 200 →
      fetch_latest_release cache now net
        = { cache := cacheInsert (cacheErase cache GITHUB_API_URL) GITHUB_API_URL now net.2,
            networkCalls := 1, payload := .ok net.2 }) ∧
    (cacheLookup cache GITHUB_API_URL = none → net.1 = 200 → net.2 ≠ [] →
      fetch_latest_release cache now net
        = { cache := cacheInsert cache GITHUB_API_URL now net.2,
            networkCalls := 1, payload := .ok net.2 } ∧
      ∀ (now' : Nat) (net' : Nat × Payload), now' - now ≤ CACHE_DURATION →
        fetch_latest_release (cacheInsert cache GITHUB_API_URL now net.2) now' net'
          = { cache := cacheInsert cache GITHUB_API_URL now net.2,
              networkCalls := 0, payload := .ok net.2 }) := by
  refine ⟨?_, ?_, ?_⟩
  · intro h1 h2 h3
    simp [fetch_latest_release, get_cached_response, h1, not_lt.mpr h2, h3]
  · intro h1 h2 h200
    simp [fetch_latest_release, get_cached_response, h1, h2,
      fetch_latest_release.fetchFromNetwork, h200, cache_response]
  · intro h1 h200 hbody
    constructor
    · simp [fetch_latest_release, get_cached_response, h1,
        fetch_latest_release.fetchFromNetwork, h200, cache_response]
    · intro now' net' hfresh
      simp [fetch_latest_release, get_cached_response, cacheLookup_insert,
        not_lt.mpr hfresh, hbody]

/-- Witness for C7: on an empty cache the first fetch stores the payload
and the second fetch 1800 s later returns it without touching the (now
failing) network. -/
theorem claim_C7_witness :
    fetch_latest_release [] 0 (200, [("tag_name", "v0.10.2")])
      = { cache := cacheInsert [] GITHUB_API_URL 0 [("tag_name", "v0.10.2")],
          networkCalls := 1, payload := .ok [("tag_name", "v0.10.2")] } ∧
    fetch_latest_release (cacheInsert [] GITHUB_API_URL 0 [("tag_name", "v0.10.2")])
        1800 (500, [])
      = { cache := cacheInsert [] GITHUB_API_URL 0 [("tag_name", "v0.10.2")],
          networkCalls := 0, payload := .ok [("tag_name", "v0.10.2")] } := by
  have h := (claim_C7_cache [] 0 (200, [("tag_name", "v0.10.2")]) 0 []).2.2
    rfl rfl (by simp)
  exact ⟨h.1, h.2 1800 (500, []) (by norm_num [CACHE_DURATION])⟩

/-- A healthy installed state: bundle extracted, launcher present, symlink
pointing at it. -/
def healthyInstall : SymState :=
  ⟨true, true, some APPRUN_PATH, false⟩

/-- Counterexample to C8 as stated: starting from a healthy installation,
the invariant holds, but immediately after `extract_appimage` removes the
old `squashfs-root` the still-present symlink points at a deleted path;
and `update_symlink` run with the launcher absent creates a dangling
symlink. -/
theorem claim_C8_counterexample :
    symlinkInvariant healthyInstall = true ∧
    symlinkInvariant (extract_appimage healthyInstall .full).1 = false ∧
    symlinkInvariant (update_symlink ⟨false, false, none, false⟩) = false := by
  refine ⟨by decide, by decide, by decide⟩

/-- C8 amended: `update_symlink` always leaves the command-entry symlink
pointing at the launcher *path*; the launcher's existence is not
guaranteed — it is false at the intermediate state of every extraction —
but after a successful (`full`) extraction followed by `update_symlink`
the spec's invariant does hold. -/
theorem claim_C8_amended :
    (∀ st : SymState, (update_symlink st).symlinkTarget = some APPRUN_PATH) ∧
    (∀ st : SymState, ((extract_appimage st .full).1).apprunExists = false) ∧
    (∀ st : SymState,
      symlinkInvariant (update_symlink (extract_appimage st .full).2) = true) := by
  have hlink : ∀ st : SymState, (update_symlink st).symlinkTarget = some APPRUN_PATH := by
    intro st
    simp only [update_symlink]
    split
    · rfl
    · rename_i h
      simpa using h
  refine ⟨hlink, ?_, ?_⟩
  · intro st
    rfl
  · intro st
    rw [symlinkInvariant, hlink]
    have : (update_symlink (extract_appimage st .full).2).apprunExists = true := by
      simp only [update_symlink, extract_appimage]
      split <;> rfl
    simp [this]

/-- Counterexample to C9 as stated: with an empty cache and the manifest
endpoint answering HTTP 500, the fetch error propagates uncaught out of
`main` — no subsequent step (config sync, scheduling, self-update) runs,
instead of the process continuing to them. -/
theorem claim_C9_counterexample :
    main_update_flow [] 0 (500, []) = Except.error 500 := by
  rfl

/-- C9 amended: a non-success manifest fetch raises a fetch error
(`ValueError`) which propagates uncaught out of `main`: the run terminates
with the error and none of the subsequent independent steps run; only when
the fetch succeeds does `main` go on to run all of them. -/
theorem claim_C9_amended :
    (∀ (cache : ApiCache) (now : Nat) (net : Nat × Payload) (code : Nat),
      (fetch_latest_release cache now net).payload = .error code →
      main_update_flow cache now net = .error code) ∧
    (∀ (cache : ApiCache) (now : Nat) (net : Nat × Payload) (steps : RunSteps),
      main_update_flow cache now net = .ok steps →
      steps = ⟨true, true, true, true, true⟩) ∧
    (∀ (now : Nat) (status : Nat) (body : Payload), status ≠ 200 →
      main_update_flow [] now (status, body) = .error status) := by
  refine ⟨?_, ?_, ?_⟩
  · intro cache now net code h
    simp [main_update_flow, h]
  · intro cache now net steps h
    rw [main_update_flow] at h
    split at h
    · exact absurd h (by simp)
    · simp at h
      simp [← h]
  · intro now status body h
    simp [main_update_flow, fetch_latest_release, get_cached_response,
      cacheLookup, fetch_latest_release.fetchFromNetwork, h]

/-- Witness for C9's amended statement at a concrete failing fetch. -/
theorem claim_C9_witness :
    main_update_flow [] 7 (404, []) = Except.error 404 :=
  claim_C9_amended.2.2 7 404 [] (by norm_num)

/-! ## C5: whole-word characterization of `detect_from_name`

The claim-side reading: a token `t` occurs "as a whole word" in `s` when
`s` splits as `pre ++ t ++ suf` with a non-word character (or the string
edge) on each side.  The lemmas below prove that the operational scanner
`searchFrom` recognizes exactly these splits. -/

/-- Right word boundary after a match: the remaining suffix is empty or
starts with a non-word character. -/
def rightBoundary (suf : List Char) : Prop :=
  ∀ c, suf.head? = some c → isWordChar c = false

/-- Left word boundary before a match: the consumed text is empty and the
preceding context was a non-word position (`prevWord = false`), or it ends
in a non-word character. -/
def leftBoundary (prevWord : Bool) (pre : List Char) : Prop :=
  match pre.getLast? with
  | none => prevWord = false
  | some c => isWordChar c = false

/-- Token `p` occurs as a whole word inside `s`. -/
def wordOccursAt (p s : List Char) : Prop :=
  ∃ pre suf, s = pre ++ p ++ suf ∧ leftBoundary false pre ∧ rightBoundary suf

/-- One of an architecture's match substrings occurs as a whole word in the
lower-cased name. -/
def archTokenOccurs (arch : Architecture) (name : String) : Prop :=
  ∃ t ∈ arch.matchStrings, wordOccursAt t.data (strLower name).data

theorem matchesHere_iff (p s : List Char) :
    matchesHere p s = true ↔ ∃ suf, s = p ++ suf ∧ rightBoundary suf := by
  induction p generalizing s with
  | nil =>
    cases s with
    | nil =>
      simp only [matchesHere, List.nil_append]
      constructor
      · intro _
        exact ⟨[], rfl, fun c hc => by simp at hc⟩
      · intro _
        trivial
    | cons c s' =>
      simp only [matchesHere, List.nil_append, Bool.not_eq_true']
      constructor
      · intro h
        refine ⟨c :: s', rfl, fun c' hc' => ?_⟩
        simp only [List.head?_cons, Option.some.injEq] at hc'
        rwa [← hc']
      · rintro ⟨suf, rfl, hr⟩
        exact hr c rfl
  | cons a p ih =>
    cases s with
    | nil =>
      simp only [matchesHere, List.cons_append]
      constructor
      · intro h
        exact absurd h (by simp)
      · rintro ⟨suf, h, -⟩
        exact absurd h (by simp)
    | cons b s' =>
      simp only [matchesHere, Bool.and_eq_true, beq_iff_eq, ih, List.cons_append]
      constructor
      · rintro ⟨rfl, suf, rfl, hr⟩
        exact ⟨suf, rfl, hr⟩
      · rintro ⟨suf, h, hr⟩
        rcases List.cons_eq_cons.mp h with ⟨rfl, rfl⟩
        exact ⟨rfl, suf, rfl, hr⟩

theorem leftBoundary_cons (pw : Bool) (c : Char) (pre : List Char) :
    leftBoundary pw (c :: pre) ↔ leftBoundary (isWordChar c) pre := by
  cases pre with
  | nil => simp [leftBoundary]
  | cons d pre' =>
    obtain ⟨x, hx⟩ : ∃ x, (d :: pre').getLast? = some x := by
      cases h : (d :: pre').getLast? with
      | none => exact absurd h (by simp)
      | some x => exact ⟨x, rfl⟩
    rw [leftBoundary, leftBoundary, List.getLast?_cons_cons, hx]

theorem searchFrom_iff (p : List Char) (prevWord : Bool) (s : List Char) :
    searchFrom p prevWord s = true ↔
      ∃ pre suf, s = pre ++ p ++ suf ∧ leftBoundary prevWord pre ∧
        rightBoundary suf := by
  induction s generalizing prevWord with
  | nil =>
    rw [searchFrom]
    simp only [Bool.and_eq_true, Bool.not_eq_true', matchesHere_iff]
    constructor
    · rintro ⟨hpw, suf, hsuf, hr⟩
      rcases List.append_eq_nil.mp hsuf.symm with ⟨rfl, rfl⟩
      exact ⟨[], [], rfl, by simp [leftBoundary, hpw], hr⟩
    · rintro ⟨pre, suf, hs, hl, hr⟩
      rcases List.append_eq_nil.mp hs.symm with ⟨h1', rfl⟩
      rcases List.append_eq_nil.mp h1' with ⟨rfl, rfl⟩
      refine ⟨?_, [], rfl, hr⟩
      simpa [leftBoundary] using hl
  | cons c s' ih =>
    rw [searchFrom]
    simp only [Bool.or_eq_true, Bool.and_eq_true, Bool.not_eq_true',
      matchesHere_iff, ih]
    constructor
    · rintro (⟨hpw, suf, hsuf, hr⟩ | ⟨pre, suf, hs, hl, hr⟩)
      · exact ⟨[], suf, by simpa using hsuf, by simp [leftBoundary, hpw], hr⟩
      · exact ⟨c :: pre, suf, by simp [hs], (leftBoundary_cons _ _ _).mpr hl, hr⟩
    · rintro ⟨pre, suf, hs, hl, hr⟩
      cases pre with
      | nil =>
        refine Or.inl ⟨?_, suf, by simpa using hs, hr⟩
        simpa [leftBoundary] using hl
      | cons c0 pre' =>
        simp only [List.cons_append] at hs
        rcases List.cons_eq_cons.mp hs with ⟨rfl, hrest⟩
        exact Or.inr ⟨pre', suf, hrest, (leftBoundary_cons _ _ _).mp hl, hr⟩

theorem patternSearch_iff (p s : String) :
    patternSearch p s = true ↔ wordOccursAt p.data s.data := by
  rw [patternSearch, wordOccursAt]
  exact searchFrom_iff p.data false s.data

/-- C5: `detect_from_name` is total (a Lean function returning an
`Option`, `none` instead of an error); a name containing an X86_64 token
as a whole word (case-insensitively) maps to X86_64; a name containing an
ARM64 token and no X86_64 token maps to ARM64 (first matching variant in
enum order); a name containing no token maps to `none`. -/
theorem claim_C5_detect (name : String) :
    (Architecture.detect_from_name name = some .X86_64 ↔
      archTokenOccurs .X86_64 name) ∧
    (Architecture.detect_from_name name = some .ARM64 ↔
      archTokenOccurs .ARM64 name ∧ ¬archTokenOccurs .X86_64 name) ∧
    (Architecture.detect_from_name name = none ↔
      ∀ arch : Architecture, ¬archTokenOccurs arch name) := by
  have hany : ∀ arch : Architecture,
      ((arch.matchStrings.any fun p => patternSearch p (strLower name)) = true ↔
        archTokenOccurs arch name) := by
    intro arch
    rw [List.any_eq_true, archTokenOccurs]
    constructor
    · rintro ⟨t, ht, hp⟩
      exact ⟨t, ht, (patternSearch_iff t (strLower name)).mp hp⟩
    · rintro ⟨t, ht, hw⟩
      exact ⟨t, ht, (patternSearch_iff t (strLower name)).mpr hw⟩
  have hfind : Architecture.detect_from_name name =
      (if (Architecture.X86_64.matchStrings.any fun p =>
            patternSearch p (strLower name)) = true
       then some Architecture.X86_64
       else if (Architecture.ARM64.matchStrings.any fun p =>
            patternSearch p (strLower name)) = true
       then some Architecture.ARM64
       else none) := by
    simp only [Architecture.detect_from_name, Architecture.enumOrder]
    by_cases h1 : ((Architecture.X86_64.matchStrings).any fun p =>
        patternSearch p (strLower name)) = true
    · rw [if_pos h1]
      exact List.find?_cons_of_pos _ h1
    · rw [if_neg h1]
      have e1 : List.find? (fun arch =>
            arch.matchStrings.any fun p => patternSearch p (strLower name))
            [Architecture.X86_64, Architecture.ARM64]
          = List.find? (fun arch =>
            arch.matchStrings.any fun p => patternSearch p (strLower name))
            [Architecture.ARM64] :=
        List.find?_cons_of_neg _ h1
      rw [e1]
      by_cases h2 : ((Architecture.ARM64.matchStrings).any fun p =>
          patternSearch p (strLower name)) = true
      · rw [if_pos h2]
        exact List.find?_cons_of_pos _ h2
      · rw [if_neg h2]
        have e2 : List.find? (fun arch =>
              arch.matchStrings.any fun p => patternSearch p (strLower name))
              [Architecture.ARM64]
            = List.find? (fun arch =>
              arch.matchStrings.any fun p => patternSearch p (strLower name))
              [] :=
          List.find?_cons_of_neg _ h2
        rw [e2, List.find?_nil]
  by_cases h1 : ((Architecture.X86_64.matchStrings).any fun p =>
      patternSearch p (strLower name)) = true
  · have o1 : archTokenOccurs .X86_64 name := (hany _).mp h1
    refine ⟨?_, ?_, ?_⟩
    · rw [hfind, if_pos h1]
      simp [o1]
    · rw [hfind, if_pos h1]
      simp [o1]
    · rw [hfind, if_pos h1]
      simp only [reduceCtorEq, false_iff, not_forall, not_not]
      exact ⟨.X86_64, o1⟩
  · have o1 : ¬archTokenOccurs .X86_64 name := fun h => h1 ((hany _).mpr h)
    by_cases h2 : ((Architecture.ARM64.matchStrings).any fun p =>
        patternSearch p (strLower name)) = true
    · have o2 : archTokenOccurs .ARM64 name := (hany _).mp h2
      refine ⟨?_, ?_, ?_⟩
      · rw [hfind, if_neg h1, if_pos h2]
        simp [o1]
      · rw [hfind, if_neg h1, if_pos h2]
        simp [o1, o2]
      · rw [hfind, if_neg h1, if_pos h2]
        simp only [reduceCtorEq, false_iff, not_forall, not_not]
        exact ⟨.ARM64, o2⟩
    · have o2 : ¬archTokenOccurs .ARM64 name := fun h => h2 ((hany _).mpr h)
      refine ⟨?_, ?_, ?_⟩
      · rw [hfind, if_neg h1, if_neg h2]
        simp [o1]
      · rw [hfind, if_neg h1, if_neg h2]
        simp [o2]
      · rw [hfind, if_neg h1, if_neg h2]
        simp only [true_iff]
        intro arch
        cases arch
        · exact o1
        · exact o2

/-- Witness for C5: a mixed-case x86_64 name yields a whole-word
occurrence, and a token-free name detects as `none`. -/
theorem claim_C5_witness :
    archTokenOccurs .X86_64 "NVIM-Linux-x86_64.AppImage" ∧
    Architecture.detect_from_name "nvim.appimage" = none :=
  ⟨(claim_C5_detect "NVIM-Linux-x86_64.AppImage").1.mp (by decide), by decide⟩

end NvimUpdate
